import Mathlib

/-!
# Verification of the Social-Insight-Prioritize core

This file embeds the two core components of the repository:

* the transcript normalizer `cleanVttTranscript` (src/utils/transcript.test.ts,
  lines 117-130): a chain of five JavaScript regex `.replace` passes followed
  by `.trim()`;
* the insight ranker inside `analyzeTranscript` (the service file, lines
  92-102): `JSON.parse`, a `.map` recomputing `totalScore` as the mean of the
  four sub-scores, and a stable `.sort` descending by `totalScore`.

Strings are modelled as `List Char` (`String.data`).  Each regex pass is
embedded by hand from the ECMAScript semantics of the pattern; the embedding
of each pass is documented at its definition.  Scores are modelled as `ℚ`
(JavaScript numbers; all the ranking claims are about the exact arithmetic
expressions the code computes).  Lines are `'\n'`-delimited, following the
spec's data model ("no internal structure ... beyond line boundaries
(`\n`-delimited)"); JavaScript additionally treats `\r`, U+2028, U+2029
as line terminators, which is outside the spec's data model.
-/

namespace SocialInsight

open scoped List

/-- The set of characters matched by JavaScript `\s` (and trimmed by
`String.prototype.trim`): ASCII whitespace, NBSP, BOM and the Unicode
space separators and line separators. -/
def isJsWs (c : Char) : Bool :=
  c == ' ' || c == '\t' || c == '\n' || c == '\r' || c == '\x0b' || c == '\x0c' ||
  c == '\u00A0' || c == '\u1680' || ('\u2000' ≤ c && c ≤ '\u200A') ||
  c == '\u2028' || c == '\u2029' || c == '\u202F' || c == '\u205F' ||
  c == '\u3000' || c == '\uFEFF'

/-- JavaScript `\w` (used for the `\b` boundary in `/^NOTE\b.*$/`):
`[A-Za-z0-9_]`. -/
def isWordChar (c : Char) : Bool :=
  ('a' ≤ c && c ≤ 'z') || ('A' ≤ c && c ≤ 'Z') || c.isDigit || c == '_'

/-- Split a character list at `'\n'` (the separators are dropped; the result
is always nonempty, mirroring the line structure seen by the `m`-flag
anchors `^`/`$`). -/
def splitNl : List Char → List (List Char)
  | [] => [[]]
  | c :: cs =>
    if c == '\n' then [] :: splitNl cs
    else
      match splitNl cs with
      | [] => [[c]]
      | l :: ls => (c :: l) :: ls

/-- Re-join lines with `'\n'`; left inverse of `splitNl`. -/
def joinNl : List (List Char) → List Char
  | [] => []
  | [l] => l
  | l :: l' :: ls => l ++ '\n' :: joinNl (l' :: ls)

/-- Does `p` occur as the initial segment of `l`? -/
def beginsWith : List Char → List Char → Bool
  | [], _ => true
  | _ :: _, [] => false
  | p :: ps, c :: cs => p == c && beginsWith ps cs

/-- Pass 1, `/^WEBVTT.*$/gm → ''`: a line whose content begins with the
literal `WEBVTT` has its whole content deleted (the newline survives, so the
line becomes blank). -/
def step1Line (l : List Char) : List Char :=
  if beginsWith "WEBVTT".data l then [] else l

/-- The match condition of pass 2, `/^NOTE\b.*$/gm`: the line begins with
the literal `NOTE` followed by a word boundary (end of line, or a character
outside `[A-Za-z0-9_]`).  The `getD` default `' '` is a non-word character,
so a line that is exactly `NOTE` satisfies the boundary. -/
def noteHit (l : List Char) : Bool :=
  beginsWith "NOTE".data l && !isWordChar (l.getD 4 ' ')

/-- Pass 2, `/^NOTE\b.*$/gm → ''`: delete the content of matching lines. -/
def step2Line (l : List Char) : List Char :=
  if noteHit l then [] else l

/-- The line-level match condition of pass 3, `/^\d+\s*$/gm`: one or more
decimal digits at the very start of the line (no leading whitespace is
permitted by the pattern), followed only by whitespace up to the end of the
line. -/
def isSeqNumLine (l : List Char) : Bool :=
  !(l.takeWhile Char.isDigit).isEmpty && (l.dropWhile Char.isDigit).all isJsWs

/-- A line consisting entirely of JavaScript whitespace. -/
def isWsLine (l : List Char) : Bool := l.all isJsWs

/-- Pass 3, `/^\d+\s*$/gm → ''`, at the line level.  Because `\s` also
matches `'\n'`, a match starting on a digit-only line extends greedily
across every following all-whitespace line, ending at the last line end
(`$`) inside that whitespace run.  Hence one match deletes the digit line
together with all immediately following all-whitespace lines, leaving a
single blank line in their place; scanning resumes at the next line. -/
def step3Lines : List (List Char) → List (List Char)
  | [] => []
  | l :: ls =>
    if isSeqNumLine l then [] :: step3Lines (ls.dropWhile isWsLine)
    else l :: step3Lines ls
  termination_by ls => ls.length
  decreasing_by
  · simp only [List.length_cons]
    exact Nat.lt_succ_of_le ((List.dropWhile_sublist _).length_le)
  · simp only [List.length_cons]
    exact Nat.lt_succ_self _

/-- The character classes of the 29-character core of the pass-4 pattern
`\d{2}:\d{2}:\d{2}\.\d{3} --> \d{2}:\d{2}:\d{2}\.\d{3}`, position by
position: two-digit hours, minutes and seconds, a literal dot, three-digit
milliseconds, the arrow exactly `" --> "`, then the same timestamp shape
again. -/
def tsChecks : List (Char → Bool) :=
  [Char.isDigit, Char.isDigit, (· == ':'), Char.isDigit, Char.isDigit, (· == ':'),
   Char.isDigit, Char.isDigit, (· == '.'), Char.isDigit, Char.isDigit, Char.isDigit,
   (· == ' '), (· == '-'), (· == '-'), (· == '>'), (· == ' '),
   Char.isDigit, Char.isDigit, (· == ':'), Char.isDigit, Char.isDigit, (· == ':'),
   Char.isDigit, Char.isDigit, (· == '.'), Char.isDigit, Char.isDigit, Char.isDigit]

/-- Does the timestamp-range pattern match at the head of `cs`?  (The
pattern needs 29 characters; `zip` pairs each position with its class.) -/
def tsRange (cs : List Char) : Bool :=
  decide (tsChecks.length ≤ cs.length) && (tsChecks.zip cs).all fun pc => pc.1 pc.2

/-- Pass 4 restricted to a single line: at the leftmost position where the
timestamp range matches, the trailing `.*` deletes the rest of the line. -/
def stripTsLine : List Char → List Char
  | [] => []
  | c :: cs => if tsRange (c :: cs) then [] else c :: stripTsLine cs

/-- Does some position of `l` match the timestamp-range pattern? -/
def hasTs : List Char → Bool
  | [] => false
  | c :: cs => tsRange (c :: cs) || hasTs cs

/-- Drop characters up to (but not including) the next `'\n'`: the effect of
the trailing greedy `.*`, which does not match line terminators. -/
def dropToNl : List Char → List Char
  | [] => []
  | c :: cs => if c == '\n' then c :: cs else dropToNl cs

theorem dropToNl_length_le (cs : List Char) : (dropToNl cs).length ≤ cs.length := by
  induction cs with
  | nil => simp [dropToNl]
  | cons c cs ih =>
    simp only [dropToNl]
    split
    · exact Nat.le_refl _
    · exact Nat.le_succ_of_le ih

/-- Pass 4, `/\d{2}:\d{2}:\d{2}\.\d{3} --> \d{2}:\d{2}:\d{2}\.\d{3}.*/g → ''`
over the whole text (the pattern has no `^` anchor and no `m` flag): scan
left to right; at a match, delete the 29 matched characters and everything
up to the next newline, then continue scanning. -/
def stripTsGo : List Char → List Char
  | [] => []
  | c :: cs =>
    if tsRange (c :: cs) then stripTsGo (dropToNl (cs.drop 28))
    else c :: stripTsGo cs
  termination_by cs => cs.length
  decreasing_by
  · have h1 := dropToNl_length_le (cs.drop 28)
    have h2 : (cs.drop 28).length = cs.length - 28 := List.length_drop 28 cs
    simp only [List.length_cons]
    omega
  · simp only [List.length_cons]
    exact Nat.lt_succ_self _

/-- Pass 5, `/\n{3,}/g → '\n\n'`: collapse each maximal run of three or
more newlines to exactly two. -/
def collapseNl : List Char → List Char
  | [] => []
  | c :: rest =>
    if c == '\n' then
      (if 2 ≤ (rest.takeWhile (· == '\n')).length then ['\n', '\n']
       else c :: rest.takeWhile (· == '\n')) ++ collapseNl (rest.dropWhile (· == '\n'))
    else c :: collapseNl rest
  termination_by cs => cs.length
  decreasing_by
  · simp only [List.length_cons]
    exact Nat.lt_succ_of_le ((List.dropWhile_sublist _).length_le)
  · simp only [List.length_cons]
    exact Nat.lt_succ_self _

/-- Leading-whitespace trim (`String.prototype.trim`, left half). -/
def trimL (cs : List Char) : List Char := cs.dropWhile isJsWs

/-- Trailing-whitespace trim (`String.prototype.trim`, right half). -/
def trimR (cs : List Char) : List Char := (cs.reverse.dropWhile isJsWs).reverse

/-- Pass 6, `.trim()`. -/
def jsTrim (cs : List Char) : List Char := trimR (trimL cs)

/-- Pass 1 as a whole-text transformation (the pattern is anchored by
`^ ... $` with the `m` flag and `.` does not match `'\n'`, so the pass acts
independently on each `'\n'`-delimited line). -/
def pass1 (cs : List Char) : List Char := joinNl ((splitNl cs).map step1Line)

/-- Pass 2 as a whole-text transformation (line-wise, as for pass 1). -/
def pass2 (cs : List Char) : List Char := joinNl ((splitNl cs).map step2Line)

/-- Pass 3 as a whole-text transformation (see `step3Lines`). -/
def pass3 (cs : List Char) : List Char := joinNl (step3Lines (splitNl cs))

/-- `cleanVttTranscript` (src/utils/transcript.test.ts, lines 117-130): the
five `.replace` passes in source order, then `.trim()`. -/
def cleanVtt (cs : List Char) : List Char :=
  jsTrim (collapseNl (stripTsGo (pass3 (pass2 (pass1 cs)))))

/-- The normalizer at the `String` level. -/
def cleanVttTranscript (s : String) : String := String.mk (cleanVtt s.data)

/-!
## The insight ranker

The `Insight` record mirrors the TypeScript interface of the source (the
types file), with JavaScript numbers modelled as `ℚ`.  The ranking claims
are about the exact arithmetic expressions of the source, which is what the
`ℚ` model computes.
-/

/-- `CarouselSlide` of the source types file. -/
structure CarouselSlide where
  title : String
  content : String
deriving DecidableEq

/-- `Insight` of the source types file. -/
structure Insight where
  id : String
  originalText : String
  informativeScore : ℚ
  inspiringScore : ℚ
  viralScore : ℚ
  linkedinScore : ℚ
  totalScore : ℚ
  summary : String
  suggestedHook : String
  category : String
  carouselSlides : List CarouselSlide
deriving DecidableEq

/-- The body of the `.map` at line 95 of the service file:
`{...i, totalScore: (i.informativeScore + i.inspiringScore + i.viralScore +
i.linkedinScore) / 4}` -- spread the record and overwrite `totalScore`. -/
def withTotal (i : Insight) : Insight :=
  { i with totalScore :=
      (i.informativeScore + i.inspiringScore + i.viralScore + i.linkedinScore) / 4 }

/-- The sort comparator `(a, b) => b.totalScore - a.totalScore` as the
"may-precede" relation: the comparator is `≤ 0` exactly when
`b.totalScore ≤ a.totalScore`. -/
def rankLE (a b : Insight) : Bool := decide (b.totalScore ≤ a.totalScore)

/-- The ranker: `.map` recomputing `totalScore`, then `.sort` with the
descending comparator.  `Array.prototype.sort` is required by ECMAScript
2019+ to be stable, and for the consistent comparator above any stable sort
produces the same output, so the stable `List.mergeSort` is a faithful
model. -/
def rank (xs : List Insight) : List Insight := (xs.map withTotal).mergeSort rankLE

/-!
## The decoding boundary (lines 92-102 of the service file)

`JSON.parse` is modelled by a JSON syntax tree `Json` plus the parser
`parseJson` below; it performs no shape validation whatsoever (the `as
Insight[]` cast is erased at runtime).  Property access on a parsed object
is `getProp`, with `none` playing the role of `undefined`.
-/

/-- A parsed JSON value (`JSON.parse` can return exactly these shapes). -/
inductive Json where
  | null
  | bool (b : Bool)
  | num (q : ℚ)
  | str (s : String)
  | arr (elems : List Json)
  | obj (fields : List (String × Json))

/-- Key lookup in a JavaScript object literal: for duplicate keys the last
occurrence wins (as in `JSON.parse`). -/
def lookupLast (fields : List (String × Json)) (k : String) : Option Json :=
  match fields with
  | [] => none
  | (k', v) :: rest =>
    match lookupLast rest k with
    | some r => some r
    | none => if k' == k then some v else none

/-- JavaScript property access `j[k]`, returning `none` for `undefined`.
(Access on `null` throws a `TypeError` instead; that case is handled in
`decodeElem`.  On numbers, booleans, strings and arrays none of the score
keys is a property, so access yields `undefined`.) -/
def getProp : Json → String → Option Json
  | .obj fields, k => lookupLast fields k
  | _, _ => none

/-- One element of the decoded-and-scored output: the spread fields of the
input element, and the computed `totalScore`, where `none` models `NaN`
(the result of arithmetic on a missing -- `undefined` -- sub-score). -/
structure RankedItem where
  fields : List (String × Json)
  totalScore : Option ℚ

/-- The numeric value a score field contributes to `i.a + i.b + i.c + i.d`:
a missing field is `undefined`, whose arithmetic is `NaN` (`none`); a JSON
number contributes its value.  (For a present non-number field JavaScript
coercion differs -- e.g. string concatenation -- so the general theorems
below restrict to `scoresWellTyped` payloads.) -/
def scoreVal (j : Json) (k : String) : Option ℚ :=
  match getProp j k with
  | some (.num q) => some q
  | _ => none

/-- Every score key of `j` is either absent or a JSON number: the domain on
which `scoreVal` is an exact model of the JavaScript arithmetic. -/
def scoresWellTyped (j : Json) : Bool :=
  ["informativeScore", "inspiringScore", "viralScore", "linkedinScore"].all fun k =>
    match getProp j k with
    | none => true
    | some (.num _) => true
    | some _ => false

/-- JavaScript `+` on number-or-NaN values: `NaN` absorbs. -/
def jsAdd : Option ℚ → Option ℚ → Option ℚ
  | some x, some y => some (x + y)
  | _, _ => none

/-- JavaScript `/ 4` on a number-or-NaN value. -/
def jsDiv4 : Option ℚ → Option ℚ
  | some x => some (x / 4)
  | none => none

/-- `(i.informativeScore + i.inspiringScore + i.viralScore +
i.linkedinScore) / 4` for a decoded element. -/
def elemTotal (j : Json) : Option ℚ :=
  jsDiv4 (jsAdd (jsAdd (jsAdd (scoreVal j "informativeScore")
    (scoreVal j "inspiringScore")) (scoreVal j "viralScore"))
    (scoreVal j "linkedinScore"))

/-- The own enumerable fields contributed by the spread `{...i}`.  (A spread
string would contribute index keys; none of them is a score key, and no
claim depends on them, so they are dropped here.) -/
def spreadFields : Json → List (String × Json)
  | .obj fields => fields
  | _ => []

/-- The user-facing message of the `catch` block (line 101). -/
def errorMessage : String :=
  "The AI provided an unexpected response format. Please try again."

/-- Decode one element of the parsed array: property access on `null`
throws a `TypeError`, which the surrounding `try`/`catch` converts into the
user-facing error; every other element is accepted without any shape
validation, `totalScore` being `NaN` (`none`) when a sub-score is missing. -/
def decodeElem (j : Json) : Except String RankedItem :=
  match j with
  | .null => .error errorMessage
  | _ => .ok { fields := spreadFields j, totalScore := elemTotal j }

/-- `.map` over the parsed array: the first throw aborts. -/
def decodeElems (elems : List Json) : Except String (List RankedItem) :=
  elems.mapM decodeElem

/-- The comparator `(a, b) => b.totalScore - a.totalScore` on decoded items:
per ECMAScript `SortCompare`, a `NaN` comparator result is treated as `+0`
(a tie).  When some totals are `NaN`, the comparator is inconsistent and
ECMAScript leaves the order implementation-defined; no theorem below
depends on the order of such a sort. -/
def jsLE (a b : RankedItem) : Bool :=
  match a.totalScore, b.totalScore with
  | some x, some y => decide (y ≤ x)
  | _, _ => true

/-- The sort at line 98, on decoded items. -/
def rankItems (items : List RankedItem) : List RankedItem := items.mergeSort jsLE

/-- `response.text || "[]"` (line 93): `undefined`, `null` (both modelled
`none`) and the empty string are falsy and replaced by `"[]"`. -/
def effectiveText : Option String → String
  | none => "[]"
  | some s => if s == "" then "[]" else s

/-!
## A model of `JSON.parse`

A recursive-descent parser for JSON text, used to model `JSON.parse(text)`
at line 94.  `none` models a thrown `SyntaxError`.  Fuel bounds the
recursion; `parseJson` supplies more fuel than any input can consume.
(The model is slightly lenient in one respect: unescaped control
characters inside string literals are accepted.  No claim depends on such
inputs.)
-/

/-- JSON insignificant whitespace. -/
def skipWs : List Char → List Char
  | [] => []
  | c :: cs => if c == ' ' || c == '\t' || c == '\n' || c == '\r' then skipWs cs else c :: cs

/-- Numeric value of a hex digit. -/
def hexVal (c : Char) : Option Nat :=
  if '0' ≤ c && c ≤ '9' then some (c.toNat - 48)
  else if 'a' ≤ c && c ≤ 'f' then some (c.toNat - 87)
  else if 'A' ≤ c && c ≤ 'F' then some (c.toNat - 55)
  else none

/-- The character denoted by a single-character escape `\e`. -/
def escChar (e : Char) : Option Char :=
  if e == '"' then some '"'
  else if e == '\\' then some '\\'
  else if e == '/' then some '/'
  else if e == 'b' then some '\x08'
  else if e == 'f' then some '\x0c'
  else if e == 'n' then some '\n'
  else if e == 'r' then some '\r'
  else if e == 't' then some '\t'
  else none

/-- Parse the remainder of a string literal (the opening quote already
consumed); returns the characters and the rest of the input. -/
def parseStrRest : List Char → Option (List Char × List Char)
  | [] => none
  | '"' :: rest => some ([], rest)
  | '\\' :: e :: rest =>
    if e == 'u' then
      match rest with
      | h1 :: h2 :: h3 :: h4 :: rest2 => do
        let n1 ← hexVal h1
        let n2 ← hexVal h2
        let n3 ← hexVal h3
        let n4 ← hexVal h4
        let pr ← parseStrRest rest2
        some (Char.ofNat (((n1 * 16 + n2) * 16 + n3) * 16 + n4) :: pr.1, pr.2)
      | _ => none
    else do
      let c ← escChar e
      let pr ← parseStrRest rest
      some (c :: pr.1, pr.2)
  | c :: rest => do
    let pr ← parseStrRest rest
    some (c :: pr.1, pr.2)

/-- Value of a digit string. -/
def natOfDigits (ds : List Char) : Nat :=
  ds.foldl (fun acc c => acc * 10 + (c.toNat - 48)) 0

/-- Parse the exponent digits after `e`/`E`, returning the scaled value and
the rest of the input. -/
def parseNumExpTail (q : ℚ) (r1 : List Char) : Option (ℚ × List Char) :=
  let es : Bool × List Char :=
    match r1 with
    | '-' :: r2 => (true, r2)
    | '+' :: r2 => (false, r2)
    | _ => (false, r1)
  let ed := es.2.span Char.isDigit
  if ed.1.isEmpty then none
  else
    let e := natOfDigits ed.1
    some (if es.1 then q / (10 : ℚ) ^ e else q * (10 : ℚ) ^ e, ed.2)

/-- Parse the optional exponent and finish the number with the sign. -/
def parseNumExp (neg : Bool) (q : ℚ) (cs : List Char) : Option (Json × List Char) :=
  let fin : ℚ × List Char → Option (Json × List Char) := fun vr =>
    some (.num (if neg then -vr.1 else vr.1), vr.2)
  match cs with
  | 'e' :: r1 => (parseNumExpTail q r1).bind fin
  | 'E' :: r1 => (parseNumExpTail q r1).bind fin
  | _ => fin (q, cs)

/-- Parse a JSON number (grammar `-? int frac? exp?`; an integer part with
a leading zero must be exactly `0`). -/
def parseNum (cs : List Char) : Option (Json × List Char) :=
  let sign : Bool × List Char :=
    match cs with
    | '-' :: rest => (true, rest)
    | _ => (false, cs)
  let ip := sign.2.span Char.isDigit
  if ip.1.isEmpty then none
  else if ip.1.headD '1' == '0' && 1 < ip.1.length then none
  else
    match ip.2 with
    | '.' :: r2 =>
      let fd := r2.span Char.isDigit
      if fd.1.isEmpty then none
      else
        let q : ℚ := (natOfDigits ip.1 : ℚ) + (natOfDigits fd.1 : ℚ) / ((10 : ℚ) ^ fd.1.length)
        parseNumExp sign.1 q fd.2
    | _ => parseNumExp sign.1 (natOfDigits ip.1 : ℚ) ip.2

mutual

/-- Parse one JSON value. -/
def parseVal : Nat → List Char → Option (Json × List Char)
  | 0, _ => none
  | fuel + 1, cs =>
    match skipWs cs with
    | 'n' :: 'u' :: 'l' :: 'l' :: rest => some (.null, rest)
    | 't' :: 'r' :: 'u' :: 'e' :: rest => some (.bool true, rest)
    | 'f' :: 'a' :: 'l' :: 's' :: 'e' :: rest => some (.bool false, rest)
    | '"' :: rest => do
      let sr ← parseStrRest rest
      some (.str (String.mk sr.1), sr.2)
    | '[' :: rest =>
      (match skipWs rest with
       | ']' :: r2 => some (.arr [], r2)
       | r2 => do
         let er ← parseElems fuel r2
         some (.arr er.1, er.2))
    | '{' :: rest =>
      (match skipWs rest with
       | '}' :: r2 => some (.obj [], r2)
       | r2 => do
         let mr ← parseMembers fuel r2
         some (.obj mr.1, mr.2))
    | c :: rest => if c == '-' || c.isDigit then parseNum (c :: rest) else none
    | [] => none

/-- Parse the elements of a nonempty array (after `[`). -/
def parseElems : Nat → List Char → Option (List Json × List Char)
  | 0, _ => none
  | fuel + 1, cs => do
    let (v, r) ← parseVal fuel cs
    match skipWs r with
    | ',' :: r2 => do
      let er ← parseElems fuel r2
      some (v :: er.1, er.2)
    | ']' :: r2 => some ([v], r2)
    | _ => none

/-- Parse the members of a nonempty object (after `{`). -/
def parseMembers : Nat → List Char → Option (List (String × Json) × List Char)
  | 0, _ => none
  | fuel + 1, cs =>
    match skipWs cs with
    | '"' :: rest => do
      let kr ← parseStrRest rest
      match skipWs kr.2 with
      | ':' :: r2 => do
        let (v, r3) ← parseVal fuel r2
        match skipWs r3 with
        | ',' :: r4 => do
          let mr ← parseMembers fuel r4
          some ((String.mk kr.1, v) :: mr.1, mr.2)
        | '}' :: r4 => some ([(String.mk kr.1, v)], r4)
        | _ => none
      | _ => none
    | _ => none

end

/-- `JSON.parse`: parse one value, allow only trailing whitespace. -/
def parseJson (s : String) : Option Json :=
  match parseVal (2 * s.length + 2) s.data with
  | some (j, rest) => if (skipWs rest).isEmpty then some j else none
  | none => none

/-- Lines 92-102 of the service file, from the response text to the ranked
insight list: `const text = response.text || "[]"`, `JSON.parse(text)`, the
`.map` computing `totalScore`, the descending `.sort`; any throw inside the
`try` (a `SyntaxError` from `JSON.parse`, or a `TypeError` from `.map` on a
non-array or from property access on a `null` element) is caught and turned
into the user-facing `errorMessage`. -/
def analyzeResponse (t : Option String) : Except String (List RankedItem) :=
  match parseJson (effectiveText t) with
  | none => .error errorMessage
  | some (.arr elems) => (decodeElems elems).map rankItems
  | some _ => .error errorMessage

/-!
## Observables used by the stated properties
-/

/-- Does the text contain three consecutive newline characters (the match
condition of `/\n{3,}/`)? -/
def hasTripleNl : List Char → Bool
  | [] => false
  | c :: cs => (c == '\n' && beginsWith ['\n', '\n'] cs) || hasTripleNl cs

/-- Does the text start with a JavaScript whitespace character? -/
def headWs : List Char → Bool
  | [] => false
  | c :: _ => isJsWs c

/-- A line containing none of the markers any of the four removal passes
matches: not a `WEBVTT` header, not a `NOTE` line, not a cue sequence
number, and without a timestamp-range match at any position. -/
def noiseFreeLine (l : List Char) : Bool :=
  !beginsWith "WEBVTT".data l && !noteHit l && !isSeqNumLine l && !hasTs l

/-- The hypothesis of the fixpoint property: every line is noise-free, and
the text has no run of three newlines, no leading whitespace and no
trailing whitespace. -/
def cleanShapeText (cs : List Char) : Bool :=
  ((splitNl cs).all noiseFreeLine) && !hasTripleNl cs &&
    !headWs cs && !headWs cs.reverse

/-- The cue-number rule as the claim words it (one or more decimal digits
surrounded by optional leading and/or trailing whitespace).  Modelled from
the claim for comparison with the source rule `isSeqNumLine`, which
permits no leading whitespace. -/
def claimSeqNumLine (l : List Char) : Bool :=
  !((l.dropWhile isJsWs).takeWhile Char.isDigit).isEmpty &&
    ((l.dropWhile isJsWs).dropWhile Char.isDigit).all isJsWs

/-- A line with at least one character that is neither whitespace nor a
decimal digit (such a line is matched by none of the cue-number or blank
patterns of pass 3). -/
def hasContentLine (l : List Char) : Bool :=
  l.any fun c => !isJsWs c && !c.isDigit

/-!
## Concrete fixtures used by witnesses and counterexamples
-/

/-- A concrete insight whose pre-supplied `totalScore` (99) is wrong. -/
def exStale : Insight :=
  { id := "i1", originalText := "o", informativeScore := 8, inspiringScore := 6,
    viralScore := 4, linkedinScore := 10, totalScore := 99, summary := "s",
    suggestedHook := "hook", category := "Growth", carouselSlides := [] }

/-- First of two insights with equal recomputed totals (mean 2). -/
def exTieA : Insight :=
  { id := "tieA", originalText := "", informativeScore := 2, inspiringScore := 2,
    viralScore := 2, linkedinScore := 2, totalScore := 7, summary := "sa",
    suggestedHook := "ha", category := "ca",
    carouselSlides := [{ title := "t", content := "c" }] }

/-- Second of two insights with equal recomputed totals (mean 2). -/
def exTieB : Insight :=
  { id := "tieB", originalText := "", informativeScore := 1, inspiringScore := 3,
    viralScore := 2, linkedinScore := 2, totalScore := 9, summary := "sb",
    suggestedHook := "hb", category := "cb", carouselSlides := [] }

/-- A decoded payload element that is missing `linkedinScore`. -/
def exFields : List (String × Json) :=
  [("id", .str "a"), ("informativeScore", .num 7), ("inspiringScore", .num 7),
   ("viralScore", .num 7)]

/-- The JSON text of a response payload whose only element is missing
`linkedinScore`. -/
def exPayload : String :=
  "[\x7b\"id\":\"a\",\"informativeScore\":7,\"inspiringScore\":7,\"viralScore\":7\x7d]"

/-!
## Lines: `splitNl` / `joinNl`
-/

theorem splitNl_ne_nil : ∀ cs : List Char, splitNl cs ≠ []
  | [] => by simp [splitNl]
  | c :: cs => by
    simp only [splitNl]
    split
    · simp
    · split <;> simp

theorem joinNl_cons_of_ne_nil (l : List Char) (L : List (List Char)) (h : L ≠ []) :
    joinNl (l :: L) = l ++ '\n' :: joinNl L := by
  cases L with
  | nil => exact absurd rfl h
  | cons x xs => rfl

theorem joinNl_splitNl : ∀ cs : List Char, joinNl (splitNl cs) = cs
  | [] => rfl
  | c :: cs => by
    simp only [splitNl]
    split
    · next h =>
      rw [joinNl_cons_of_ne_nil _ _ (splitNl_ne_nil cs), joinNl_splitNl cs]
      simp only [beq_iff_eq] at h
      subst h
      rfl
    · next h =>
      split
      · next hs => exact absurd hs (splitNl_ne_nil cs)
      · next l ls hs =>
        have hj : joinNl (l :: ls) = cs := by rw [← hs, joinNl_splitNl cs]
        cases ls with
        | nil => simpa [joinNl] using hj
        | cons y ys =>
          rw [joinNl_cons_of_ne_nil _ _ (by simp)]
          rw [joinNl_cons_of_ne_nil _ _ (by simp)] at hj
          simp [← hj, joinNl_cons_of_ne_nil]

theorem splitNl_nl_free : ∀ (cs : List Char), ∀ l ∈ splitNl cs, '\n' ∉ l
  | [] => by intro l hl; simp [splitNl] at hl; simp [hl]
  | c :: cs => by
    intro l hl
    simp only [splitNl] at hl
    split at hl
    · rcases List.mem_cons.mp hl with h | h
      · simp [h]
      · exact splitNl_nl_free cs l h
    · next hc =>
      split at hl
      · next hs => exact absurd hs (splitNl_ne_nil cs)
      · next x xs hs =>
        rcases List.mem_cons.mp hl with h | h
        · subst h
          intro hmem
          rcases List.mem_cons.mp hmem with h | h
          · simp only [beq_iff_eq] at hc; exact hc h.symm
          · exact splitNl_nl_free cs x (hs ▸ List.mem_cons_self x xs) h
        · exact splitNl_nl_free cs l (hs ▸ List.mem_cons_of_mem x h)

theorem splitNl_of_nl_free : ∀ l : List Char, '\n' ∉ l → splitNl l = [l]
  | [], _ => rfl
  | c :: l, h => by
    simp only [List.mem_cons, not_or] at h
    have hc : ¬(c = '\n') := fun hc => h.1 hc.symm
    simp only [splitNl, beq_iff_eq, if_neg hc, splitNl_of_nl_free l h.2]

theorem splitNl_append_nl (l r : List Char) (h : '\n' ∉ l) :
    splitNl (l ++ '\n' :: r) = l :: splitNl r := by
  induction l with
  | nil => simp [splitNl]
  | cons c l ih =>
    simp only [List.mem_cons, not_or] at h
    have hc : ¬(c = '\n') := fun hc => h.1 hc.symm
    simp only [List.cons_append, splitNl, beq_iff_eq, if_neg hc, List.append_eq, ih h.2]

theorem splitNl_joinNl : ∀ L : List (List Char), L ≠ [] →
    (∀ l ∈ L, '\n' ∉ l) → splitNl (joinNl L) = L
  | [], h, _ => absurd rfl h
  | [l], _, hf => by
    simpa [joinNl] using splitNl_of_nl_free l (hf l (by simp))
  | l :: x :: xs, _, hf => by
    rw [joinNl_cons_of_ne_nil _ _ (by simp),
      splitNl_append_nl _ _ (hf l (by simp)),
      splitNl_joinNl (x :: xs) (by simp) (fun m hm => hf m (List.mem_cons_of_mem l hm))]

theorem joinNl_sublist : ∀ (L' L : List (List Char)),
    List.Forall₂ (fun a b => a <+ b) L' L → joinNl L' <+ joinNl L
  | [], [], _ => List.Sublist.refl _
  | [], _ :: _, h => nomatch h
  | _ :: _, [], h => nomatch h
  | [a], _ :: _ :: _, .cons _ h2 => nomatch h2
  | _ :: _ :: _, [_], .cons _ h2 => nomatch h2
  | [a], [b], h => by
    have h1 : a <+ b := (List.forall₂_cons.mp h).1
    simpa [joinNl] using h1
  | a :: x :: L', b :: y :: L, h => by
    have h1 : a <+ b := (List.forall₂_cons.mp h).1
    have ih := joinNl_sublist (x :: L') (y :: L) (List.forall₂_cons.mp h).2
    rw [joinNl_cons_of_ne_nil a (x :: L') (by simp),
      joinNl_cons_of_ne_nil b (y :: L) (by simp)]
    exact List.Sublist.append h1 (List.Sublist.cons₂ _ ih)

theorem joinNl_sublist_of_suffix : ∀ {L' L : List (List Char)},
    L' <:+ L → joinNl L' <+ joinNl L := by
  intro L' L h
  obtain ⟨t, rfl⟩ := h
  induction t with
  | nil => exact List.Sublist.refl _
  | cons x t ih =>
    refine List.Sublist.trans ih ?_
    rw [List.cons_append]
    cases ht : t ++ L' with
    | nil => simp [joinNl, ht]
    | cons y ys =>
      rw [joinNl_cons_of_ne_nil x (y :: ys) (by simp)]
      exact List.Sublist.trans (List.sublist_cons_self '\n' _) (List.sublist_append_right x _)

/-!
## The timestamp pass
-/

theorem tsChecks_length : tsChecks.length = 29 := rfl

theorem tsRange_length {cs : List Char} (h : tsRange cs = true) : 29 ≤ cs.length := by
  simp only [tsRange, Bool.and_eq_true, decide_eq_true_eq, tsChecks_length] at h
  exact h.1

theorem tsRange_short {l : List Char} (h : l.length < 29) : tsRange l = false := by
  have hd : decide (tsChecks.length ≤ l.length) = false := by
    simp only [tsChecks_length, decide_eq_false_iff_not]
    omega
  unfold tsRange
  rw [hd, Bool.false_and]

theorem zip_append_of_le : ∀ (ps : List (Char → Bool)) (xs ys : List Char),
    ps.length ≤ xs.length → ps.zip (xs ++ ys) = ps.zip xs
  | [], _, _, _ => by simp
  | p :: ps, [], _, h => by simp at h
  | p :: ps, x :: xs, ys, h => by
    simp only [List.cons_append, List.zip_cons_cons, List.cons.injEq, true_and]
    exact zip_append_of_le ps xs ys (by simpa using h)

theorem tsRange_append_of_le {l : List Char} (r : List Char) (h : 29 ≤ l.length) :
    tsRange (l ++ r) = tsRange l := by
  unfold tsRange
  rw [zip_append_of_le tsChecks l r (by rw [tsChecks_length]; exact h)]
  have h1 : decide (tsChecks.length ≤ (l ++ r).length) = true := by
    simp only [tsChecks_length, List.length_append, decide_eq_true_eq]
    omega
  have h2 : decide (tsChecks.length ≤ l.length) = true := by
    simp only [tsChecks_length, decide_eq_true_eq]
    omega
  rw [h1, h2]

theorem tsChecks_not_nl : ∀ p ∈ tsChecks, p '\n' = false := by decide

theorem zip_all_append_nl : ∀ (ps : List (Char → Bool)) (xs ys : List Char),
    xs.length < ps.length → (∀ p ∈ ps, p '\n' = false) →
    ((ps.zip (xs ++ '\n' :: ys)).all fun pc => pc.1 pc.2) = false
  | [], xs, _, h, _ => by simp at h
  | p :: ps, [], ys, _, hnl => by
    simp only [List.nil_append, List.zip_cons_cons, List.all_cons]
    rw [hnl p (by simp)]
    simp
  | p :: ps, x :: xs, ys, h, hnl => by
    simp only [List.cons_append, List.zip_cons_cons, List.all_cons]
    rw [zip_all_append_nl ps xs ys (by simpa using h)
      (fun q hq => hnl q (by simp [hq]))]
    simp

theorem tsRange_append_nl (l r : List Char) (h : l.length < 29) :
    tsRange (l ++ '\n' :: r) = false := by
  unfold tsRange
  rw [zip_all_append_nl tsChecks l r (by rw [tsChecks_length]; omega) tsChecks_not_nl]
  simp

theorem tsRange_append_any (l r : List Char) :
    tsRange (l ++ '\n' :: r) = tsRange l := by
  rcases Nat.lt_or_ge l.length 29 with h | h
  · rw [tsRange_append_nl l r h, tsRange_short h]
  · exact tsRange_append_of_le _ h

theorem tsRange_extend {l : List Char} (r : List Char) (h : tsRange l = true) :
    tsRange (l ++ r) = true := by
  rw [tsRange_append_of_le r (tsRange_length h)]
  exact h

theorem tsRange_nl_head (cs : List Char) : tsRange ('\n' :: cs) = false := by
  have := tsRange_append_nl [] cs (by simp)
  simpa using this

theorem tsRange_nil : tsRange [] = false := rfl

theorem stripTsLine_of_not_hasTs : ∀ l : List Char, hasTs l = false → stripTsLine l = l
  | [], _ => rfl
  | c :: l, h => by
    simp only [hasTs, Bool.or_eq_false_iff] at h
    simp only [stripTsLine, h.1, Bool.false_eq_true, if_false,
      stripTsLine_of_not_hasTs l h.2]

theorem stripTsLine_sublist : ∀ l : List Char, stripTsLine l <+ l
  | [] => List.Sublist.refl _
  | c :: l => by
    simp only [stripTsLine]
    split
    · exact List.nil_sublist _
    · exact List.Sublist.cons₂ _ (stripTsLine_sublist l)

theorem stripTsLine_of_tsRange {l : List Char} (h : tsRange l = true) :
    stripTsLine l = [] := by
  cases l with
  | nil => rw [tsRange_nil] at h; exact absurd h (by simp)
  | cons c cs => simp only [stripTsLine, h, if_true]

theorem stripTsLine_take : ∀ (cs : List Char) (p : Nat),
    (∀ q, q < p → tsRange (cs.drop q) = false) → tsRange (cs.drop p) = true →
    stripTsLine cs = cs.take p
  | cs, 0, _, h => by
    rw [List.take_zero]
    exact stripTsLine_of_tsRange (by simpa using h)
  | [], p + 1, _, h => by
    rw [List.drop_nil] at h
    rw [tsRange_nil] at h
    exact absurd h (by simp)
  | c :: cs, p + 1, hq, h => by
    have h0 : tsRange (c :: cs) = false := by simpa using hq 0 (Nat.succ_pos p)
    simp only [stripTsLine, h0, Bool.false_eq_true, if_false, List.take_succ_cons,
      List.cons.injEq, true_and]
    exact stripTsLine_take cs p (fun q hqp => hq (q + 1) (by omega)) h

theorem dropToNl_of_nl_free : ∀ d : List Char, '\n' ∉ d → dropToNl d = []
  | [], _ => rfl
  | c :: d, h => by
    simp only [List.mem_cons, not_or] at h
    have hc : ¬(c = '\n') := fun hc => h.1 hc.symm
    simp only [dropToNl, beq_iff_eq, if_neg hc, dropToNl_of_nl_free d h.2]

theorem dropToNl_append_nl : ∀ (d r : List Char), '\n' ∉ d →
    dropToNl (d ++ '\n' :: r) = '\n' :: r
  | [], r, _ => by simp [dropToNl]
  | c :: d, r, h => by
    simp only [List.mem_cons, not_or] at h
    have hc : ¬(c = '\n') := fun hc => h.1 hc.symm
    simp only [List.cons_append, dropToNl, beq_iff_eq, if_neg hc, List.append_eq,
      dropToNl_append_nl d r h.2]

theorem stripTsGo_nl_free : ∀ l : List Char, '\n' ∉ l → stripTsGo l = stripTsLine l
  | [], _ => by simp [stripTsGo, stripTsLine]
  | c :: l, h => by
    simp only [List.mem_cons, not_or] at h
    cases ht : tsRange (c :: l) with
    | true =>
      have hdrop : '\n' ∉ l.drop 28 := fun hm => h.2 ((List.drop_sublist 28 l).mem hm)
      simp only [stripTsGo, ht, if_true, stripTsLine, dropToNl_of_nl_free _ hdrop]
    | false =>
      simp only [stripTsGo, stripTsLine, ht, Bool.false_eq_true, if_false]
      rw [stripTsGo_nl_free l (by simp [h.2])]

theorem stripTsGo_append_nl : ∀ (l r : List Char), '\n' ∉ l →
    stripTsGo (l ++ '\n' :: r) = stripTsLine l ++ '\n' :: stripTsGo r
  | [], r, _ => by
    simp only [List.nil_append, stripTsLine]
    rw [stripTsGo]
    simp [tsRange_nl_head]
  | c :: l, r, h => by
    simp only [List.mem_cons, not_or] at h
    have hc : ¬(c = '\n') := fun hc => h.1 hc.symm
    simp only [List.cons_append]
    cases ht : tsRange (c :: (l ++ '\n' :: r)) with
    | true =>
      have ht' : tsRange ((c :: l) ++ '\n' :: r) = true := by simpa using ht
      have hlen : 29 ≤ (c :: l).length := by
        by_contra hlt
        rw [tsRange_append_nl (c :: l) r (by omega)] at ht'
        exact absurd ht' (by simp)
      have ht2 : tsRange (c :: l) = true := by
        rw [← tsRange_append_any (c :: l) r]
        exact ht'
      have h28 : 28 ≤ l.length := by simpa using hlen
      have hd475 : (l ++ '\n' :: r).drop 28 = l.drop 28 ++ '\n' :: r :=
        List.drop_append_of_le_length h28
      have hdropnl : '\n' ∉ l.drop 28 := fun hm => h.2 ((List.drop_sublist 28 l).mem hm)
      rw [stripTsGo]
      simp only [ht, if_true, hd475, dropToNl_append_nl _ _ hdropnl]
      rw [stripTsLine_of_tsRange ht2, List.nil_append]
      rw [stripTsGo]
      simp [tsRange_nl_head]
    | false =>
      have ht2 : tsRange (c :: l) = false := by
        cases h2 : tsRange (c :: l) with
        | false => rfl
        | true =>
          have := tsRange_extend ('\n' :: r) h2
          rw [List.cons_append] at this
          rw [this] at ht
          exact absurd ht (by simp)
      rw [stripTsGo]
      simp only [ht, Bool.false_eq_true, if_false]
      rw [stripTsGo_append_nl l r h.2]
      simp only [stripTsLine, ht2, Bool.false_eq_true, if_false, List.cons_append]

theorem split_first_nl : ∀ cs : List Char,
    '\n' ∉ cs ∨ ∃ l r, cs = l ++ '\n' :: r ∧ '\n' ∉ l
  | [] => Or.inl (by simp)
  | c :: cs => by
    by_cases hc : c = '\n'
    · subst hc
      exact Or.inr ⟨[], cs, rfl, by simp⟩
    · rcases split_first_nl cs with h | ⟨l, r, rfl, hl⟩
      · refine Or.inl ?_
        simp only [List.mem_cons, not_or]
        exact ⟨fun hx => hc hx.symm, h⟩
      · refine Or.inr ⟨c :: l, r, rfl, ?_⟩
        simp only [List.mem_cons, not_or]
        exact ⟨fun hx => hc hx.symm, hl⟩

theorem stripTsGo_linewise (cs : List Char) :
    stripTsGo cs = joinNl ((splitNl cs).map stripTsLine) := by
  rcases split_first_nl cs with h | ⟨l, r, hcs, hl⟩
  · rw [stripTsGo_nl_free cs h, splitNl_of_nl_free cs h]
    rfl
  · subst hcs
    rw [stripTsGo_append_nl l r hl, splitNl_append_nl l r hl]
    simp only [List.map_cons]
    rw [joinNl_cons_of_ne_nil _ _ (by simp [splitNl_ne_nil r])]
    rw [stripTsGo_linewise r]
  termination_by cs.length
  decreasing_by
  subst hcs
  simp only [List.length_append, List.length_cons]
  omega


/-!
## Newline runs and trimming
-/

theorem beginsWith_append (p : List Char) : ∀ (u w : List Char),
    beginsWith p u = true → beginsWith p (u ++ w) = true := by
  induction p with
  | nil => intro u w _; rfl
  | cons a ps ih =>
    intro u w h
    cases u with
    | nil => simp [beginsWith] at h
    | cons c u' =>
      simp only [beginsWith, Bool.and_eq_true] at h
      simp only [List.cons_append, beginsWith, Bool.and_eq_true]
      exact ⟨h.1, ih u' w h.2⟩

theorem hasTripleNl_append_left : ∀ (v w : List Char),
    hasTripleNl v = true → hasTripleNl (v ++ w) = true := by
  intro v w h
  induction v with
  | nil => simp [hasTripleNl] at h
  | cons c v' ih =>
    simp only [hasTripleNl, Bool.or_eq_true, Bool.and_eq_true] at h
    simp only [List.cons_append, hasTripleNl, Bool.or_eq_true, Bool.and_eq_true]
    rcases h with ⟨h1, h2⟩ | h
    · exact Or.inl ⟨h1, beginsWith_append _ v' w h2⟩
    · exact Or.inr (ih h)

theorem hasTripleNl_append_right : ∀ (v w : List Char),
    hasTripleNl w = true → hasTripleNl (v ++ w) = true := by
  intro v w h
  induction v with
  | nil => simpa using h
  | cons c v' ih =>
    simp only [List.cons_append, hasTripleNl, Bool.or_eq_true]
    exact Or.inr ih

theorem hasTripleNl_false_left (v w : List Char)
    (h : hasTripleNl (v ++ w) = false) : hasTripleNl v = false := by
  cases hv : hasTripleNl v with
  | false => rfl
  | true => rw [hasTripleNl_append_left v w hv] at h; exact absurd h (by simp)

theorem hasTripleNl_false_right (v w : List Char)
    (h : hasTripleNl (v ++ w) = false) : hasTripleNl w = false := by
  cases hw : hasTripleNl w with
  | false => rfl
  | true => rw [hasTripleNl_append_right v w hw] at h; exact absurd h (by simp)

theorem head?_ne_nl_of_dropWhile (cs : List Char) :
    (cs.dropWhile (fun c => c == '\n')).head? ≠ some '\n' := by
  have h := List.head?_dropWhile_not (fun c => c == '\n') cs
  intro hc
  rw [hc] at h
  simp at h

theorem hasTripleNl_cons_false {c : Char} {T : List Char} (hc : ¬(c = '\n'))
    (hT : hasTripleNl T = false) : hasTripleNl (c :: T) = false := by
  simp only [hasTripleNl, Bool.or_eq_false_iff]
  refine ⟨?_, hT⟩
  simp [hc]

theorem beginsWith_nl_false {T : List Char} (h : T.head? ≠ some '\n') :
    beginsWith ['\n'] T = false := by
  cases T with
  | nil => rfl
  | cons t T' =>
    simp only [List.head?_cons, ne_eq, Option.some.injEq] at h
    show (('\n' == t) && true) = false
    have ht : ('\n' == t) = false := by simp; exact fun hx => h hx.symm
    rw [ht, Bool.false_and]

theorem beginsWith_nlnl_false {T : List Char} (h : T.head? ≠ some '\n') :
    beginsWith ['\n', '\n'] T = false := by
  cases T with
  | nil => rfl
  | cons t T' =>
    simp only [List.head?_cons, ne_eq, Option.some.injEq] at h
    show (('\n' == t) && _) = false
    have ht : ('\n' == t) = false := by simp; exact fun hx => h hx.symm
    rw [ht, Bool.false_and]

theorem hasTripleNl_two_nl {T : List Char} (h : T.head? ≠ some '\n')
    (h2 : hasTripleNl T = false) : hasTripleNl ('\n' :: '\n' :: T) = false := by
  simp [hasTripleNl, beginsWith, beginsWith_nl_false h, beginsWith_nlnl_false h, h2]

theorem hasTripleNl_one_nl {T : List Char} (h : T.head? ≠ some '\n')
    (h2 : hasTripleNl T = false) : hasTripleNl ('\n' :: T) = false := by
  simp [hasTripleNl, beginsWith, beginsWith_nlnl_false h, h2]

theorem collapseNl_head?_ne_nl {cs : List Char} (h : cs.head? ≠ some '\n') :
    (collapseNl cs).head? ≠ some '\n' := by
  cases cs with
  | nil => simp [collapseNl]
  | cons c rest =>
    simp only [List.head?_cons, ne_eq, Option.some.injEq] at h
    have hc : ¬((c == '\n') = true) := by simp; exact h
    rw [collapseNl]
    simp only [if_neg hc, List.head?_cons, ne_eq, Option.some.injEq]
    exact h

theorem collapseNl_no_triple (cs : List Char) :
    hasTripleNl (collapseNl cs) = false := by
  induction cs using collapseNl.induct with
  | case1 => simp [collapseNl, hasTripleNl]
  | case2 c rest hc ih =>
    rw [collapseNl, if_pos hc]
    have hc' : c = '\n' := by simpa using hc
    have hhead : ((rest.dropWhile (fun x => x == '\n')).head?) ≠ some '\n' :=
      head?_ne_nl_of_dropWhile rest
    have hT : (collapseNl (rest.dropWhile (fun x => x == '\n'))).head? ≠ some '\n' :=
      collapseNl_head?_ne_nl hhead
    by_cases h2 : 2 ≤ (rest.takeWhile (fun x => x == '\n')).length
    · rw [if_pos h2]
      show hasTripleNl ('\n' :: '\n' :: collapseNl _) = false
      exact hasTripleNl_two_nl hT ih
    · rw [if_neg h2]
      have hlen : (rest.takeWhile (fun x => x == '\n')).length ≤ 1 := by omega
      rcases hrun : rest.takeWhile (fun x => x == '\n') with _ | ⟨r1, run'⟩
      · subst hc'
        show hasTripleNl ('\n' :: collapseNl _) = false
        exact hasTripleNl_one_nl hT ih
      · have hr1 : r1 = '\n' := by
          have := List.mem_takeWhile_imp (hrun ▸ List.mem_cons_self r1 run')
          simpa using this
        have hrun' : run' = [] := by
          rw [hrun] at hlen
          simp only [List.length_cons] at hlen
          exact List.eq_nil_of_length_eq_zero (by omega)
        subst hc' hr1 hrun'
        show hasTripleNl ('\n' :: '\n' :: collapseNl _) = false
        exact hasTripleNl_two_nl hT ih
  | case3 c rest hc ih =>
    rw [collapseNl, if_neg hc]
    have hc' : ¬(c = '\n') := by simpa using hc
    exact hasTripleNl_cons_false hc' ih

theorem beginsWith_two_of_takeWhile {rest : List Char}
    (h : 2 ≤ (rest.takeWhile (fun c => c == '\n')).length) :
    beginsWith ['\n', '\n'] rest = true := by
  cases rest with
  | nil => simp [List.takeWhile_nil] at h
  | cons a rest' =>
    simp only [List.takeWhile_cons] at h
    by_cases ha : (a == '\n') = true
    · rw [if_pos ha] at h
      have ha' : a = '\n' := by simpa using ha
      subst ha'
      cases rest' with
      | nil => simp [List.takeWhile_nil] at h
      | cons b rest'' =>
        simp only [List.takeWhile_cons] at h
        by_cases hb : (b == '\n') = true
        · have hb' : b = '\n' := by simpa using hb
          subst hb'
          simp [beginsWith]
        · rw [if_neg hb] at h
          simp at h
    · rw [if_neg ha] at h
      simp at h

theorem collapseNl_of_no_triple (cs : List Char) (h : hasTripleNl cs = false) :
    collapseNl cs = cs := by
  induction cs using collapseNl.induct with
  | case1 => simp [collapseNl]
  | case2 c rest hc ih =>
    have hc' : c = '\n' := by simpa using hc
    subst hc'
    simp only [hasTripleNl, Bool.or_eq_false_iff, Bool.and_eq_false_iff] at h
    have hb : beginsWith ['\n', '\n'] rest = false := by
      rcases h.1 with h1 | h1
      · simp at h1
      · exact h1
    have h2 : ¬(2 ≤ (rest.takeWhile (fun x => x == '\n')).length) := by
      intro hle
      rw [beginsWith_two_of_takeWhile hle] at hb
      exact absurd hb (by simp)
    rw [collapseNl, if_pos hc, if_neg h2]
    have hsplit : rest.takeWhile (fun x => x == '\n') ++
        rest.dropWhile (fun x => x == '\n') = rest :=
      List.takeWhile_append_dropWhile _ _
    have htl : hasTripleNl (rest.dropWhile (fun x => x == '\n')) = false := by
      refine hasTripleNl_false_right (rest.takeWhile (fun x => x == '\n')) _ ?_
      rw [hsplit]
      exact h.2
    rw [ih htl]
    rw [List.cons_append, hsplit]
  | case3 c rest hc ih =>
    simp only [hasTripleNl, Bool.or_eq_false_iff] at h
    rw [collapseNl, if_neg hc, ih h.2]

theorem collapseNl_sublist (cs : List Char) : collapseNl cs <+ cs := by
  induction cs using collapseNl.induct with
  | case1 => simp [collapseNl]
  | case2 c rest hc ih =>
    have hc' : c = '\n' := by simpa using hc
    subst hc'
    rw [collapseNl, if_pos hc]
    have hsplit : rest.takeWhile (fun x => x == '\n') ++
        rest.dropWhile (fun x => x == '\n') = rest :=
      List.takeWhile_append_dropWhile _ _
    have hblock : (if 2 ≤ (rest.takeWhile (fun x => x == '\n')).length then ['\n', '\n']
        else '\n' :: rest.takeWhile (fun x => x == '\n')) <+
        '\n' :: rest.takeWhile (fun x => x == '\n') := by
      split
      · next h2 =>
        rcases hrun : rest.takeWhile (fun x => x == '\n') with _ | ⟨r1, run'⟩
        · rw [hrun] at h2; simp at h2
        · have hr1 : r1 = '\n' := by
            have := List.mem_takeWhile_imp (hrun ▸ List.mem_cons_self r1 run')
            simpa using this
          subst hr1
          exact List.Sublist.cons₂ _ (List.Sublist.cons₂ _ (List.nil_sublist _))
      · exact List.Sublist.refl _
    have := List.Sublist.append hblock ih
    calc (if 2 ≤ (rest.takeWhile (fun x => x == '\n')).length then ['\n', '\n']
        else '\n' :: rest.takeWhile (fun x => x == '\n')) ++
          collapseNl (rest.dropWhile (fun x => x == '\n'))
        <+ ('\n' :: rest.takeWhile (fun x => x == '\n')) ++
          rest.dropWhile (fun x => x == '\n') := this
      _ = '\n' :: rest := by rw [List.cons_append, hsplit]
  | case3 c rest hc ih =>
    rw [collapseNl, if_neg hc]
    exact List.Sublist.cons₂ _ ih

theorem headWs_dropWhile (cs : List Char) : headWs (cs.dropWhile isJsWs) = false := by
  induction cs with
  | nil => rfl
  | cons c cs ih =>
    rw [List.dropWhile_cons]
    by_cases h : isJsWs c = true
    · rw [if_pos h]; exact ih
    · rw [if_neg h]
      simp only [headWs]
      simpa using h

theorem trimR_append (Y : List Char) :
    trimR Y ++ (Y.reverse.takeWhile isJsWs).reverse = Y := by
  unfold trimR
  rw [← List.reverse_append, List.takeWhile_append_dropWhile, List.reverse_reverse]

theorem headWs_trimR {Y : List Char} (h : headWs Y = false) :
    headWs (trimR Y) = false := by
  cases hT : trimR Y with
  | nil => rfl
  | cons c v =>
    have hY : Y = c :: (v ++ (Y.reverse.takeWhile isJsWs).reverse) := by
      conv_lhs => rw [← trimR_append Y]
      rw [hT, List.cons_append]
    rw [hY] at h
    simpa [headWs] using h

theorem headWs_jsTrim (cs : List Char) : headWs (jsTrim cs) = false := by
  unfold jsTrim trimL
  exact headWs_trimR (headWs_dropWhile cs)

theorem trimR_reverse (Y : List Char) :
    (trimR Y).reverse = Y.reverse.dropWhile isJsWs := by
  unfold trimR
  rw [List.reverse_reverse]

theorem tailWs_jsTrim (cs : List Char) : headWs (jsTrim cs).reverse = false := by
  unfold jsTrim
  rw [trimR_reverse]
  exact headWs_dropWhile _

theorem trimR_sublist (Y : List Char) : trimR Y <+ Y := by
  have h1 : Y.reverse.dropWhile isJsWs <+ Y.reverse := List.dropWhile_sublist _
  have h2 := h1.reverse
  rwa [List.reverse_reverse] at h2

theorem jsTrim_sublist (cs : List Char) : jsTrim cs <+ cs := by
  unfold jsTrim trimL
  exact (trimR_sublist _).trans (List.dropWhile_sublist _)

theorem trimL_of_headWs {cs : List Char} (h : headWs cs = false) :
    cs.dropWhile isJsWs = cs := by
  cases cs with
  | nil => rfl
  | cons c cs =>
    simp only [headWs] at h
    rw [List.dropWhile_cons_of_neg (by simp [h])]

theorem trimR_of_tailWs {cs : List Char} (h : headWs cs.reverse = false) :
    trimR cs = cs := by
  unfold trimR
  rw [trimL_of_headWs h, List.reverse_reverse]

theorem jsTrim_of_no_edge_ws {cs : List Char} (h1 : headWs cs = false)
    (h2 : headWs cs.reverse = false) : jsTrim cs = cs := by
  unfold jsTrim trimL
  rw [trimL_of_headWs h1, trimR_of_tailWs h2]

theorem hasTripleNl_trimL {cs : List Char} (h : hasTripleNl cs = false) :
    hasTripleNl (cs.dropWhile isJsWs) = false := by
  refine hasTripleNl_false_right (cs.takeWhile isJsWs) _ ?_
  rw [List.takeWhile_append_dropWhile]
  exact h

theorem hasTripleNl_trimR {cs : List Char} (h : hasTripleNl cs = false) :
    hasTripleNl (trimR cs) = false := by
  refine hasTripleNl_false_left _ ((cs.reverse.takeWhile isJsWs).reverse) ?_
  rw [trimR_append]
  exact h

theorem hasTripleNl_jsTrim {cs : List Char} (h : hasTripleNl cs = false) :
    hasTripleNl (jsTrim cs) = false := by
  unfold jsTrim trimL
  exact hasTripleNl_trimR (hasTripleNl_trimL h)

/-!
## The line passes
-/

theorem step1Line_cases (l : List Char) : step1Line l = l ∨ step1Line l = [] := by
  unfold step1Line
  split
  · exact Or.inr rfl
  · exact Or.inl rfl

theorem step2Line_cases (l : List Char) : step2Line l = l ∨ step2Line l = [] := by
  unfold step2Line
  split
  · exact Or.inr rfl
  · exact Or.inl rfl

theorem step1Line_sublist (l : List Char) : step1Line l <+ l := by
  rcases step1Line_cases l with h | h
  · rw [h]
  · rw [h]
    exact List.nil_sublist _

theorem step2Line_sublist (l : List Char) : step2Line l <+ l := by
  rcases step2Line_cases l with h | h
  · rw [h]
  · rw [h]
    exact List.nil_sublist _

theorem forall2_map_sublist (f : List Char → List Char)
    (hf : ∀ l : List Char, f l <+ l) :
    ∀ L : List (List Char), List.Forall₂ (fun a b => a <+ b) (L.map f) L
  | [] => List.Forall₂.nil
  | l :: L => by
    rw [List.map_cons]
    exact List.Forall₂.cons (hf l) (forall2_map_sublist f hf L)

theorem pass_map_sublist (f : List Char → List Char)
    (hf : ∀ l : List Char, f l <+ l) (cs : List Char) :
    joinNl ((splitNl cs).map f) <+ cs := by
  have h := joinNl_sublist _ _ (forall2_map_sublist f hf (splitNl cs))
  rwa [joinNl_splitNl] at h

theorem pass1_sublist (cs : List Char) : pass1 cs <+ cs :=
  pass_map_sublist step1Line step1Line_sublist cs

theorem pass2_sublist (cs : List Char) : pass2 cs <+ cs :=
  pass_map_sublist step2Line step2Line_sublist cs

theorem map_id_of_mem (f : List Char → List Char) :
    ∀ L : List (List Char), (∀ l ∈ L, f l = l) → L.map f = L
  | [], _ => rfl
  | l :: L, h => by
    rw [List.map_cons, h l (by simp),
      map_id_of_mem f L (fun x hx => h x (List.mem_cons_of_mem l hx))]

theorem step3Lines_ne_nil : ∀ L : List (List Char), L ≠ [] → step3Lines L ≠ [] := by
  intro L hL
  cases L with
  | nil => exact absurd rfl hL
  | cons l ls =>
    rw [step3Lines]
    split <;> simp

theorem step3Lines_mem : ∀ L : List (List Char), ∀ l ∈ step3Lines L, l = [] ∨ l ∈ L := by
  intro L
  induction L using step3Lines.induct with
  | case1 => intro l hl; rw [step3Lines] at hl; exact absurd hl (by simp)
  | case2 l ls hseq ih =>
    intro x hx
    rw [step3Lines, if_pos hseq] at hx
    rcases List.mem_cons.mp hx with h | h
    · exact Or.inl h
    · rcases ih x h with h' | h'
      · exact Or.inl h'
      · exact Or.inr (List.mem_cons_of_mem l ((List.dropWhile_sublist _).mem h'))
  | case3 l ls hseq ih =>
    intro x hx
    rw [step3Lines, if_neg hseq] at hx
    rcases List.mem_cons.mp hx with h | h
    · exact Or.inr (h ▸ List.mem_cons_self l ls)
    · rcases ih x h with h' | h'
      · exact Or.inl h'
      · exact Or.inr (List.mem_cons_of_mem l h')

theorem step3Lines_id : ∀ L : List (List Char),
    (∀ l ∈ L, isSeqNumLine l = false) → step3Lines L = L := by
  intro L
  induction L using step3Lines.induct with
  | case1 => intro _; rw [step3Lines]
  | case2 l ls hseq ih =>
    intro h
    rw [h l (List.mem_cons_self l ls)] at hseq
    exact absurd hseq (by simp)
  | case3 l ls hseq ih =>
    intro h
    rw [step3Lines, if_neg hseq, ih (fun x hx => h x (List.mem_cons_of_mem l hx))]

theorem step3Lines_sublist : ∀ L : List (List Char),
    joinNl (step3Lines L) <+ joinNl L := by
  intro L
  induction L using step3Lines.induct with
  | case1 => rw [step3Lines]
  | case2 l ls hseq ih =>
    rw [step3Lines, if_pos hseq]
    cases ls with
    | nil =>
      rw [List.dropWhile_nil, step3Lines]
      show joinNl [[]] <+ joinNl [l]
      simp [joinNl]
    | cons y ys =>
      have h1 : joinNl (step3Lines ((y :: ys).dropWhile isWsLine)) <+ joinNl (y :: ys) :=
        ih.trans (joinNl_sublist_of_suffix (List.dropWhile_suffix _))
      rcases hR : step3Lines ((y :: ys).dropWhile isWsLine) with _ | ⟨r, rs⟩
      · show joinNl [[]] <+ joinNl (l :: y :: ys)
        simp [joinNl]
      · rw [joinNl_cons_of_ne_nil [] (r :: rs) (by simp)]
        simp only [List.nil_append]
        rw [joinNl_cons_of_ne_nil l (y :: ys) (by simp)]
        rw [hR] at h1
        exact (List.Sublist.cons₂ '\n' h1).trans
          (List.sublist_append_right l ('\n' :: joinNl (y :: ys)))
  | case3 l ls hseq ih =>
    rw [step3Lines, if_neg hseq]
    cases ls with
    | nil =>
      rw [step3Lines]
    | cons y ys =>
      rcases hR : step3Lines (y :: ys) with _ | ⟨r, rs⟩
      · exact absurd hR (step3Lines_ne_nil (y :: ys) (by simp))
      · rw [joinNl_cons_of_ne_nil l (r :: rs) (by simp),
          joinNl_cons_of_ne_nil l (y :: ys) (by simp)]
        rw [hR] at ih
        exact List.Sublist.append (List.Sublist.refl l) (List.Sublist.cons₂ '\n' ih)

theorem pass3_sublist (cs : List Char) : pass3 cs <+ cs := by
  unfold pass3
  have h := step3Lines_sublist (splitNl cs)
  rwa [joinNl_splitNl] at h

theorem splitNl_pass3 (cs : List Char) :
    splitNl (pass3 cs) = step3Lines (splitNl cs) := by
  unfold pass3
  refine splitNl_joinNl _ (step3Lines_ne_nil _ (splitNl_ne_nil cs)) ?_
  intro l hl
  rcases step3Lines_mem _ l hl with h | h
  · subst h; simp
  · exact splitNl_nl_free cs l h

theorem no_content_of_all (l : List Char)
    (h : ∀ c ∈ l, isJsWs c = true ∨ c.isDigit = true) : hasContentLine l = false := by
  simp only [hasContentLine, List.any_eq_false]
  intro c hc
  rcases h c hc with hw | hd
  · simp [hw]
  · simp [hd]

theorem isSeqNumLine_no_content {l : List Char} (h : isSeqNumLine l = true) :
    hasContentLine l = false := by
  refine no_content_of_all l ?_
  intro c hc
  have hsplit : l.takeWhile Char.isDigit ++ l.dropWhile Char.isDigit = l :=
    List.takeWhile_append_dropWhile _ _
  rw [← hsplit] at hc
  rcases List.mem_append.mp hc with h1 | h1
  · exact Or.inr (List.mem_takeWhile_imp h1)
  · simp only [isSeqNumLine, Bool.and_eq_true] at h
    have hall := h.2
    rw [List.all_eq_true] at hall
    exact Or.inl (hall c h1)

theorem isWsLine_no_content {l : List Char} (h : isWsLine l = true) :
    hasContentLine l = false := by
  refine no_content_of_all l ?_
  intro c hc
  simp only [isWsLine, List.all_eq_true] at h
  exact Or.inl (h c hc)

theorem filter_content_dropWhile_ws (ls : List (List Char)) :
    (ls.dropWhile isWsLine).filter hasContentLine = ls.filter hasContentLine := by
  induction ls with
  | nil => rfl
  | cons y ys ih =>
    rw [List.dropWhile_cons]
    by_cases h : isWsLine y = true
    · rw [if_pos h, ih, List.filter_cons_of_neg (by simp [isWsLine_no_content h])]
    · rw [if_neg h]

theorem step3Lines_filter_content : ∀ L : List (List Char),
    (step3Lines L).filter hasContentLine = L.filter hasContentLine := by
  intro L
  induction L using step3Lines.induct with
  | case1 => rw [step3Lines]
  | case2 l ls hseq ih =>
    rw [step3Lines, if_pos hseq,
      List.filter_cons_of_neg (by simp [hasContentLine]),
      ih, filter_content_dropWhile_ws,
      List.filter_cons_of_neg (by simp [isSeqNumLine_no_content hseq])]
  | case3 l ls hseq ih =>
    rw [step3Lines, if_neg hseq]
    simp only [List.filter_cons, ih]

theorem step3Lines_no_seqnum : ∀ L : List (List Char),
    ∀ l ∈ step3Lines L, isSeqNumLine l = false := by
  intro L
  induction L using step3Lines.induct with
  | case1 => intro l hl; rw [step3Lines] at hl; exact absurd hl (by simp)
  | case2 l ls hseq ih =>
    intro x hx
    rw [step3Lines, if_pos hseq] at hx
    rcases List.mem_cons.mp hx with h | h
    · subst h; rfl
    · exact ih x h
  | case3 l ls hseq ih =>
    intro x hx
    rw [step3Lines, if_neg hseq] at hx
    rcases List.mem_cons.mp hx with h | h
    · subst h; simpa using hseq
    · exact ih x h

/-!
## The ranker
-/

theorem rankLE_trans (a b c : Insight) (hab : rankLE a b) (hbc : rankLE b c) :
    rankLE a c := by
  simp only [rankLE, decide_eq_true_eq] at hab hbc ⊢
  exact le_trans hbc hab

theorem rankLE_total (a b : Insight) : rankLE a b || rankLE b a := by
  simp only [rankLE]
  rcases le_total b.totalScore a.totalScore with h | h
  · simp [h]
  · simp [h]

theorem jsAdd_none_right (x : Option ℚ) : jsAdd x none = none := by
  cases x <;> rfl

theorem jsAdd_none_left (y : Option ℚ) : jsAdd none y = none := by
  cases y <;> rfl

theorem jsDiv4_none : jsDiv4 none = none := rfl

/-!
## The fixpoint of the normalizer on clean text
-/

theorem noiseFreeLine_spec {l : List Char} (h : noiseFreeLine l = true) :
    beginsWith "WEBVTT".data l = false ∧ noteHit l = false ∧
      isSeqNumLine l = false ∧ hasTs l = false := by
  simp only [noiseFreeLine, Bool.and_eq_true, Bool.not_eq_true'] at h
  exact ⟨h.1.1.1, h.1.1.2, h.1.2, h.2⟩

theorem cleanVtt_fixpoint {cs : List Char} (h : cleanShapeText cs = true) :
    cleanVtt cs = cs := by
  simp only [cleanShapeText, Bool.and_eq_true, Bool.not_eq_true', List.all_eq_true] at h
  obtain ⟨⟨⟨hlines, htriple⟩, hlead⟩, htrail⟩ := h
  have hp1 : pass1 cs = cs := by
    unfold pass1
    rw [map_id_of_mem step1Line (splitNl cs)
      (fun l hl => by simp [step1Line, (noiseFreeLine_spec (hlines l hl)).1]),
      joinNl_splitNl]
  have hp2 : pass2 cs = cs := by
    unfold pass2
    rw [map_id_of_mem step2Line (splitNl cs)
      (fun l hl => by simp [step2Line, (noiseFreeLine_spec (hlines l hl)).2.1]),
      joinNl_splitNl]
  have hp3 : pass3 cs = cs := by
    unfold pass3
    rw [step3Lines_id (splitNl cs)
      (fun l hl => (noiseFreeLine_spec (hlines l hl)).2.2.1),
      joinNl_splitNl]
  have hp4 : stripTsGo cs = cs := by
    rw [stripTsGo_linewise,
      map_id_of_mem stripTsLine (splitNl cs)
        (fun l hl => stripTsLine_of_not_hasTs l (noiseFreeLine_spec (hlines l hl)).2.2.2),
      joinNl_splitNl]
  unfold cleanVtt
  rw [hp1, hp2, hp3, hp4, collapseNl_of_no_triple cs htriple,
    jsTrim_of_no_edge_ws hlead htrail]

/-!
## The claims
-/

/-- C1: every element of the output of ranking has `totalScore` equal to the
arithmetic mean of its four sub-scores
`(informativeScore + inspiringScore + viralScore + linkedinScore) / 4`,
overwriting and never trusting any `totalScore` present on the input (the
inputs `xs` range over records with arbitrary pre-supplied `totalScore`). -/
theorem claim_C1 (xs : List Insight) (e : Insight) (he : e ∈ rank xs) :
    e.totalScore =
      (e.informativeScore + e.inspiringScore + e.viralScore + e.linkedinScore) / 4 := by
  unfold rank at he
  rcases List.mem_map.mp (List.mem_mergeSort.mp he) with ⟨i, _, rfl⟩
  simp [withTotal]

/-- Witness for C1 at a concrete input whose pre-supplied `totalScore` is 99:
the ranked element's total is the recomputed mean instead. -/
theorem claim_C1_witness :
    (withTotal exStale).totalScore =
      ((withTotal exStale).informativeScore + (withTotal exStale).inspiringScore +
        (withTotal exStale).viralScore + (withTotal exStale).linkedinScore) / 4 :=
  claim_C1 [exStale] (withTotal exStale)
    (List.mem_mergeSort.mpr (List.mem_singleton.mpr rfl))

/-- C2: the output of ranking is sorted by `totalScore` descending, and any
two elements with equal `totalScore` keep, in the output, the relative order
they had in the (score-recomputed) input: the sort is stable and (being a
function) deterministic. -/
theorem claim_C2 (xs : List Insight) :
    (rank xs).Pairwise (fun a b => b.totalScore ≤ a.totalScore) ∧
    (∀ a b : Insight, a.totalScore = b.totalScore →
      [a, b] <+ xs.map withTotal → [a, b] <+ rank xs) := by
  constructor
  · have hs := List.sorted_mergeSort rankLE_trans rankLE_total (xs.map withTotal)
    exact hs.imp (fun hab => by simpa [rankLE] using hab)
  · intro a b heq hsub
    unfold rank
    refine List.pair_sublist_mergeSort rankLE_trans rankLE_total ?_ hsub
    simp [rankLE, heq]

/-- Witness for C2: two concrete insights with different fields but equal
recomputed totals keep their input order in the ranked output. -/
theorem claim_C2_witness :
    [withTotal exTieA, withTotal exTieB] <+ rank [exTieA, exTieB] :=
  (claim_C2 [exTieA, exTieB]).2 (withTotal exTieA) (withTotal exTieB)
    (by norm_num [withTotal, exTieA, exTieB])
    (List.Sublist.refl _)

/-- C8: ranking preserves length, and the empty input yields the empty
output rather than an error. -/
theorem claim_C8 :
    (∀ xs : List Insight, (rank xs).length = xs.length) ∧ rank [] = [] := by
  constructor
  · intro xs
    unfold rank
    rw [List.length_mergeSort, List.length_map]
  · unfold rank
    simp

/-- C9: the ranked output is a permutation of the input records with only
`totalScore` recomputed: every other field (`id`, the four sub-scores,
`summary`, `suggestedHook`, `category`, `originalText`, and the
`carouselSlides` sequence with its internal order) passes through
unchanged, `carouselSlides` being neither reordered nor validated. -/
theorem claim_C9 (xs : List Insight) :
    rank xs ~ xs.map withTotal ∧
    ∀ i : Insight, (withTotal i).id = i.id ∧
      (withTotal i).originalText = i.originalText ∧
      (withTotal i).informativeScore = i.informativeScore ∧
      (withTotal i).inspiringScore = i.inspiringScore ∧
      (withTotal i).viralScore = i.viralScore ∧
      (withTotal i).linkedinScore = i.linkedinScore ∧
      (withTotal i).summary = i.summary ∧
      (withTotal i).suggestedHook = i.suggestedHook ∧
      (withTotal i).category = i.category ∧
      (withTotal i).carouselSlides = i.carouselSlides :=
  ⟨List.mergeSort_perm (xs.map withTotal) rankLE,
    fun _ => ⟨rfl, rfl, rfl, rfl, rfl, rfl, rfl, rfl, rfl, rfl⟩⟩

/-- C3: the timestamp rule acts strictly within lines (the whole-text pass
`stripTsGo` equals the line-by-line pass, so a match never crosses a
newline); at the leftmost position of a line where the 29-character pattern
`HH:MM:SS.mmm --> HH:MM:SS.mmm` (`tsChecks`: two-digit fields, a literal
dot, the arrow exactly `" --> "`) matches, the match and the whole rest of
the line are removed; a line with no well-formed timestamp match -- in
particular any malformed timestamp -- is left untouched; the canonical
timestamp line is removed entirely, and the non-dot-separator line
`00:01:23X456 --> 00:01:25.789` is untouched. -/
theorem claim_C3 :
    (∀ cs : List Char, stripTsGo cs = joinNl ((splitNl cs).map stripTsLine)) ∧
    (∀ (cs : List Char) (p : Nat), (∀ q, q < p → tsRange (cs.drop q) = false) →
      tsRange (cs.drop p) = true → stripTsLine cs = cs.take p) ∧
    (∀ l : List Char, hasTs l = false → stripTsLine l = l) ∧
    tsRange "00:01:23.456 --> 00:01:25.789".data = true ∧
    stripTsLine "00:01:23.456 --> 00:01:25.789".data = [] ∧
    stripTsLine "00:01:23X456 --> 00:01:25.789".data =
      "00:01:23X456 --> 00:01:25.789".data := by
  refine ⟨stripTsGo_linewise, stripTsLine_take, stripTsLine_of_not_hasTs, ?_, ?_, ?_⟩
  · decide
  · decide
  · decide

/-- Witness for C3: the leftmost-match clause applied at a concrete line
whose timestamp starts at position 3 (text before the match survives, the
rest of the line is removed), and the untouched clause applied at the
malformed line. -/
theorem claim_C3_witness :
    stripTsLine "ab 00:01:23.456 --> 00:01:25.789 cue".data =
      "ab 00:01:23.456 --> 00:01:25.789 cue".data.take 3 ∧
    stripTsLine "0:01:23.456 --> 00:01:25.789".data =
      "0:01:23.456 --> 00:01:25.789".data :=
  ⟨claim_C3.2.1 "ab 00:01:23.456 --> 00:01:25.789 cue".data 3 (by decide) (by decide),
    claim_C3.2.2.1 "0:01:23.456 --> 00:01:25.789".data (by decide)⟩

/-- C4: for every input string the normalized output is a subsequence of
the input's characters (the passes only delete), has no leading or trailing
(JavaScript) whitespace, and contains no run of three or more consecutive
newline characters. -/
theorem claim_C4 (s : String) :
    (cleanVttTranscript s).data <+ s.data ∧
    headWs (cleanVttTranscript s).data = false ∧
    headWs (cleanVttTranscript s).data.reverse = false ∧
    hasTripleNl (cleanVttTranscript s).data = false := by
  have hdata : (cleanVttTranscript s).data = cleanVtt s.data := rfl
  rw [hdata]
  unfold cleanVtt
  refine ⟨?_, headWs_jsTrim _, tailWs_jsTrim _, hasTripleNl_jsTrim (collapseNl_no_triple _)⟩
  refine (jsTrim_sublist _).trans ((collapseNl_sublist _).trans ?_)
  refine List.Sublist.trans ?_ (pass1_sublist s.data)
  refine List.Sublist.trans ?_ (pass2_sublist _)
  refine List.Sublist.trans ?_ (pass3_sublist _)
  rw [stripTsGo_linewise]
  exact pass_map_sublist stripTsLine stripTsLine_sublist _

/-- C5: the normalizer is total by construction in this model (a function
`String → String`); it maps the empty string to the empty string; and it is
the identity on every string whose lines carry no WebVTT/NOTE/timestamp/
sequence-number markers and which has no leading or trailing whitespace
and no run of three or more newlines (`cleanShapeText`). -/
theorem claim_C5 :
    cleanVttTranscript "" = "" ∧
    ∀ s : String, cleanShapeText s.data = true → cleanVttTranscript s = s := by
  have hfix : ∀ s : String, cleanShapeText s.data = true → cleanVttTranscript s = s := by
    intro s h
    show String.mk (cleanVtt s.data) = s
    rw [cleanVtt_fixpoint h]
  exact ⟨hfix "" (by decide), hfix⟩

/-- Witness for C5: a concrete noise-free two-line text satisfies the
hypothesis and is returned unchanged. -/
theorem claim_C5_witness :
    cleanShapeText "Hello world.\nIt has two lines.".data = true ∧
    cleanVttTranscript "Hello world.\nIt has two lines." =
      "Hello world.\nIt has two lines." :=
  ⟨by decide, claim_C5.2 "Hello world.\nIt has two lines." (by decide)⟩

/-- C6 as stated is false; this exhibits the failure: the line `" 1"`
consists of digits surrounded by optional leading/trailing whitespace
(`claimSeqNumLine`), yet normalize leaves the input `"a\n 1\nb"` entirely
unchanged -- the line survives, because the source pattern `/^\d+\s*$/m`
permits no leading whitespace. -/
theorem claim_C6_counterexample :
    claimSeqNumLine " 1".data = true ∧
    cleanVttTranscript "a\n 1\nb" = "a\n 1\nb" ∧
    " 1".data ∈ splitNl (cleanVttTranscript "a\n 1\nb").data := by
  have heq : cleanVttTranscript "a\n 1\nb" = "a\n 1\nb" := by
    show String.mk (cleanVtt "a\n 1\nb".data) = "a\n 1\nb"
    rw [cleanVtt_fixpoint (by decide)]
  refine ⟨by decide, heq, ?_⟩
  rw [heq]
  decide

/-- C6 amended: the cue-number pass removes every line consisting of one or
more decimal digits followed by optional trailing whitespace and with no
leading whitespace (`isSeqNumLine`; a line with leading whitespace before
the digits is not removed, see the counterexample), and it removes no line
containing a non-whitespace, non-digit character: after the pass no
cue-number line remains, and the subsequence of lines with such content is
unchanged. -/
theorem claim_C6 (cs : List Char) :
    ((splitNl (pass3 cs)).all fun l => !isSeqNumLine l) = true ∧
    (splitNl (pass3 cs)).filter hasContentLine = (splitNl cs).filter hasContentLine := by
  rw [splitNl_pass3]
  constructor
  · rw [List.all_eq_true]
    intro l hl
    simp [step3Lines_no_seqnum (splitNl cs) l hl]
  · exact step3Lines_filter_content (splitNl cs)

/-- C7 as stated is false; this exhibits the failure: a payload whose only
element is missing the required sub-score `linkedinScore` is decoded and
ranked successfully (`.ok`, not the malformed-payload error), with the
missing score surfacing as a `NaN` (`none`) `totalScore`. -/
theorem claim_C7_counterexample :
    analyzeResponse (some exPayload) =
      .ok [{ fields := exFields, totalScore := none }] := by
  have h1 : parseJson (effectiveText (some exPayload)) =
      some (.arr [.obj exFields]) := rfl
  unfold analyzeResponse
  rw [h1]
  show Except.ok (rankItems [{ fields := exFields, totalScore := none }]) = _
  rw [rankItems, List.mergeSort_singleton]

/-- C7 amended: the decoding step (`JSON.parse` plus an unchecked cast)
performs no shape validation, so an element missing a required sub-score
field is not rejected and no distinct failure is signalled; the element is
accepted with `totalScore` computed as `NaN` (modelled `none`) -- the
missing field is never coerced to a numeric default. -/
theorem claim_C7 (fs : List (String × Json)) (k : String)
    (hk : k ∈ ["informativeScore", "inspiringScore", "viralScore", "linkedinScore"])
    (hmiss : lookupLast fs k = none) :
    decodeElem (Json.obj fs) = .ok { fields := fs, totalScore := none } := by
  have hsv : scoreVal (Json.obj fs) k = none := by
    simp [scoreVal, getProp, hmiss]
  have htot : elemTotal (Json.obj fs) = none := by
    simp only [List.mem_cons, List.mem_singleton] at hk
    rcases hk with rfl | rfl | rfl | rfl | hk
    · simp [elemTotal, hsv, jsAdd_none_left, jsAdd_none_right, jsDiv4_none]
    · simp [elemTotal, hsv, jsAdd_none_left, jsAdd_none_right, jsDiv4_none]
    · simp [elemTotal, hsv, jsAdd_none_left, jsAdd_none_right, jsDiv4_none]
    · simp [elemTotal, hsv, jsAdd_none_left, jsAdd_none_right, jsDiv4_none]
    · exact absurd hk (by simp)
  simp [decodeElem, spreadFields, htot]

/-- Witness for C7 (amended) at the concrete element missing
`linkedinScore`. -/
theorem claim_C7_witness :
    decodeElem (Json.obj exFields) = .ok { fields := exFields, totalScore := none } :=
  claim_C7 exFields "linkedinScore" (by decide) rfl

/-- C10: when the AI response carries no text (`response.text` null,
undefined, or the empty string -- all falsy), the text is replaced by the
JSON literal `"[]"` before decoding, and the analysis returns the empty
insight list rather than the malformed-response error. -/
theorem claim_C10 :
    effectiveText none = "[]" ∧ effectiveText (some "") = "[]" ∧
    analyzeResponse none = .ok [] ∧ analyzeResponse (some "") = .ok [] := by
  refine ⟨rfl, rfl, ?_, ?_⟩
  · have h1 : parseJson (effectiveText none) = some (.arr []) := rfl
    unfold analyzeResponse
    rw [h1]
    show Except.ok (rankItems []) = .ok []
    rw [rankItems, List.mergeSort_nil]
  · have h1 : parseJson (effectiveText (some "")) = some (.arr []) := rfl
    unfold analyzeResponse
    rw [h1]
    show Except.ok (rankItems []) = .ok []
    rw [rankItems, List.mergeSort_nil]

end SocialInsight
